import Mathlib

/-! Verification of the catalog-build pipeline of the EmulationStation
    website generator (src/generate.js): a shallow embedding of its data
    model and operations, followed by theorems about the embedded code. -/

namespace Generate

/-- JavaScript truthiness of an optional string field of a parsed game
    record: the field is present and is a non-empty string. -/
def truthy : Option String → Bool
  | none => false
  | some s => !(s == "")

/-- Modelled from the spec: the path resolution primitive (resolve from
    node:path), an out-of-scope raw filesystem primitive; modelled as joining
    the base directory and the relative path, keeping absolute paths intact. -/
def resolvePath (base rel : String) : String :=
  if rel.data.head? = some '/' then rel else String.mk (base.data ++ '/' :: rel.data)

/-- Modelled from the spec: the basename primitive from node:path, an
    out-of-scope raw filesystem primitive; returns the last path component. -/
def basename (p : String) : String :=
  String.mk ((p.data.reverse.takeWhile (fun c => !(c == '/'))).reverse)

/-- Embedding of cleanGamePath (generate.js lines 110-118): strip a single
    leading "./" prefix. -/
def cleanGamePath (path : String) : String :=
  if path.data.take 2 = ['.', '/'] then String.mk (path.data.drop 2) else path

/-- Characters matched by the illegal-character pattern of the external
    sanitize-filename transform: slash, question mark, angle brackets,
    backslash, colon, star, pipe, double quote. -/
def illegalChar (c : Char) : Bool :=
  c == '/' || c == '?' || c == '<' || c == '>' || c == Char.ofNat 92 ||
  c == ':' || c == '*' || c == '|' || c == Char.ofNat 34

/-- Characters matched by the control-character pattern of the external
    sanitize-filename transform (U+0000 to U+001F and U+0080 to U+009F). -/
def controlChar (c : Char) : Bool :=
  decide (c.toNat ≤ 31) || (decide (128 ≤ c.toNat) && decide (c.toNat ≤ 159))

/-- Windows reserved device names recognized by the external
    sanitize-filename transform. -/
def windowsReservedNames : List (List Char) :=
  ["con", "prn", "aux", "nul",
   "com0", "com1", "com2", "com3", "com4", "com5", "com6", "com7", "com8", "com9",
   "lpt0", "lpt1", "lpt2", "lpt3", "lpt4", "lpt5", "lpt6", "lpt7", "lpt8", "lpt9"].map
    String.data

/-- Whether the whole name matches the case-insensitive Windows reserved-name
    pattern: a reserved device name optionally followed by a dot and anything. -/
def isWindowsReserved (l : List Char) : Bool :=
  windowsReservedNames.contains ((l.map Char.toLower).takeWhile (fun c => !(c == '.')))

/-- Whether the whole name is a non-empty run of dots (the reserved-name
    pattern of the external sanitize-filename transform). -/
def allDots (l : List Char) : Bool :=
  !(l.isEmpty) && l.all (fun c => c == '.')

/-- Trailing characters stripped by the Windows trailing pattern of the
    external sanitize-filename transform: dots and spaces. -/
def dotOrSpace (c : Char) : Bool :=
  c == '.' || c == ' '

/-- Replacement of a trailing run of dots and spaces by the replacement
    string, as performed by the external sanitize-filename transform. -/
def replaceWindowsTrailing (repl : List Char) (l : List Char) : List Char :=
  let kept := (l.reverse.dropWhile dotOrSpace).reverse
  if kept.length = l.length then l else kept ++ repl

/-- Byte-budgeted truncation at character boundaries, as performed by the
    truncate-utf8-bytes helper of the external sanitize-filename transform. -/
def truncateUtf8 : Nat → List Char → List Char
  | _, [] => []
  | budget, c :: cs =>
    if c.utf8Size ≤ budget then c :: truncateUtf8 (budget - c.utf8Size) cs else []

/-- One pass of the external sanitize-filename transform with a given
    replacement string: illegal characters, control characters, an all-dots
    name, a Windows reserved name, a trailing run of dots and spaces, then
    truncation to 255 bytes. -/
def sanitizeOnce (repl : List Char) (l : List Char) : List Char :=
  let s1 := l.flatMap (fun c => if illegalChar c then repl else [c])
  let s2 := s1.flatMap (fun c => if controlChar c then repl else [c])
  let s3 := if allDots s2 then repl else s2
  let s4 := if isWindowsReserved s3 then repl else s3
  let s5 := replaceWindowsTrailing repl s4
  truncateUtf8 255 s5

/-- Modelled from the spec: the external general-purpose filename
    sanitization transform (the sanitize-filename npm library, not part of
    the repository sources), called with the replacement option "-"; the
    library sanitizes once with the replacement and then once more with the
    empty replacement. -/
def sanitizeFileName (s : String) : String :=
  String.mk (sanitizeOnce [] (sanitizeOnce ['-'] s.data))

/-- Replacement of every occurrence of a character by another, as performed
    by the replaceAll calls of buildSanitizedGameFileName. -/
def replaceAll (s : String) (c r : Char) : String :=
  String.mk (s.data.map (fun x => if x == c then r else x))

/-- The six explicit substitution passes of buildSanitizedGameFileName
    (generate.js lines 142-147). -/
def replaceSpecialChars (s : String) : String :=
  let s := replaceAll s '#' '-'
  let s := replaceAll s '%' '-'
  let s := replaceAll s '!' '-'
  let s := replaceAll s '[' '-'
  let s := replaceAll s ']' '-'
  let s := replaceAll s '+' '-'
  s

/-- Embedding of buildSanitizedGameFileName (generate.js lines 133-150) on
    the path field of a game record: the external sanitization transform
    followed by the six explicit substitution passes. -/
def buildSanitizedGameFileName (path : String) : String :=
  replaceSpecialChars (sanitizeFileName path)

/-- Embedding of buildSanitizedGameFileName with the underlying external
    sanitization transform abstracted as a possibly-failing call: the code
    wraps the library call in a try/catch that logs and rethrows, so a
    failure of the transform propagates. -/
def buildSanitizedGameFileNameWith (sanitize : String → Except String String)
    (path : String) : Except String String :=
  match sanitize path with
  | .error e => .error e
  | .ok s => .ok (replaceSpecialChars s)

/-- The actual external sanitization transform never fails on a string input
    (the call site stringifies its argument), so the run of the repository
    code corresponds to this always-succeeding instance. -/
def sanitizeFileNameE (s : String) : Except String String :=
  .ok (sanitizeFileName s)

/-- Hexadecimal digit table of the ECMAScript percent-encoding. -/
def hexDigits : List Char :=
  ['0', '1', '2', '3', '4', '5', '6', '7', '8', '9', 'A', 'B', 'C', 'D', 'E', 'F']

/-- Hexadecimal digit of the ECMAScript percent-encoding. -/
def hexDigit (n : Nat) : Char :=
  hexDigits.getD n '0'

/-- UTF-8 bytes of a character, as used by the ECMAScript percent-encoding. -/
def utf8Bytes (c : Char) : List Nat :=
  let n := c.toNat
  if n < 128 then [n]
  else if n < 2048 then [192 + n / 64, 128 + n % 64]
  else if n < 65536 then [224 + n / 4096, 128 + (n / 64) % 64, 128 + n % 64]
  else [240 + n / 262144, 128 + (n / 4096) % 64, 128 + (n / 64) % 64, 128 + n % 64]

/-- Percent-encoding of one byte: a percent sign and two uppercase
    hexadecimal digits. -/
def percentEncodeByte (b : Nat) : List Char :=
  ['%', hexDigit (b / 16), hexDigit (b % 16)]

/-- Characters left unescaped by encodeURIComponent: ASCII letters and
    digits and the marks dash, underscore, dot, bang, tilde, star,
    apostrophe, parentheses. -/
def uriUnreserved (c : Char) : Bool :=
  c.isAlpha || c.isDigit || c == '-' || c == '_' || c == '.' || c == '!' ||
  c == '~' || c == '*' || c == Char.ofNat 39 || c == '(' || c == ')'

/-- Encoding of one character by encodeURIComponent: kept verbatim when
    unreserved, otherwise the percent-encoding of its UTF-8 bytes. -/
def urlEncodeChar (c : Char) : List Char :=
  if uriUnreserved c then [c] else (utf8Bytes c).flatMap percentEncodeByte

/-- Embedding of urlEncode (generate.js lines 129-131); encodeURIComponent
    is modelled from its ECMAScript definition: every character outside the
    unreserved set is replaced by the percent-encoding of its UTF-8 bytes. -/
def urlEncode (path : String) : String :=
  String.mk (path.data.flatMap urlEncodeChar)

/-- A raw game entry as parsed from gamelist.xml: the path field is
    mandatory, every other field is optional. -/
structure Game where
  path : String
  name : Option String := none
  image : Option String := none
  video : Option String := none
  thumbnail : Option String := none
  hidden : Option String := none
deriving DecidableEq

/-- A normalized game record, as the loop of processSystemDirectory leaves
    it: filled name, cleaned path, sanitized file name stem, cleaned and
    percent-encoded asset paths, and the generated thumbnail reference. -/
structure NGame where
  name : String := ""
  path : String := ""
  image : Option String := none
  imageUrlEncoded : Option String := none
  video : Option String := none
  videoUrlEncoded : Option String := none
  thumbnail : Option String := none
  hidden : Option String := none
  sanitizedFileName : String := ""
  generatedThumbnail : String := ""
deriving DecidableEq

/-- The normalized record without its thumbnail reference: the projection of
    a record to the fields that the normalizer itself determines. -/
def NGame.core (g : NGame) : NGame :=
  { g with generatedThumbnail := "" }

instance {ε α : Type} [DecidableEq ε] [DecidableEq α] : DecidableEq (Except ε α) :=
  fun x y =>
  match x, y with
  | .error a, .error b =>
    if h : a = b then isTrue (by rw [h]) else isFalse (by intro he; cases he; exact h rfl)
  | .ok a, .ok b =>
    if h : a = b then isTrue (by rw [h]) else isFalse (by intro he; cases he; exact h rfl)
  | .error _, .ok _ => isFalse (by intro he; cases he)
  | .ok _, .error _ => isFalse (by intro he; cases he)

/-- Abstract filesystem and image-library environment: which paths are
    readable, and on which source paths the load/resize/write chain of the
    image library succeeds. -/
structure FsEnv where
  readable : String → Bool
  jimpOk : String → Bool

/-- The placeholder thumbnail reference of generate.js. -/
def placeholder : String :=
  "https://via.placeholder.com/100"

/-- Source image selection of tryToGenerateThumbnail (generate.js lines
    198-206): prefer the thumbnail field, else the image field. -/
def chooseOriginalImage (g : NGame) : Option String :=
  if truthy g.thumbnail then g.thumbnail
  else if truthy g.image then g.image
  else none

/-- Embedding of tryToGenerateThumbnail (generate.js lines 197-236). The
    second component records whether the image load/resize/write chain was
    executed; every failure branch is caught by the code and yields the
    placeholder reference. -/
def tryToGenerateThumbnail (env : FsEnv) (systemPath : String) (game : NGame) :
    String × Bool :=
  match chooseOriginalImage game with
  | none => (placeholder, false)
  | some originalImage =>
    let originalImagePath := resolvePath systemPath originalImage
    if !(env.readable originalImagePath) then (placeholder, false)
    else
      let relativeGeneratedImagePath := game.sanitizedFileName ++ "-100.png"
      let generatedImagePath := resolvePath systemPath relativeGeneratedImagePath
      if env.readable generatedImagePath then (relativeGeneratedImagePath, false)
      else if env.jimpOk originalImagePath then (relativeGeneratedImagePath, true)
      else (placeholder, true)

/-- Embedding of the per-game body of the loop of processSystemDirectory
    (generate.js lines 74-89): fill a missing name from the base name of the
    resolved raw path, clean the path, build the sanitized stem (propagating
    a sanitization failure), clean and percent-encode the image and video
    fields when truthy, then derive the thumbnail reference. -/
def processGame (sanitize : String → Except String String) (env : FsEnv)
    (path : String) (game : Game) : Except String NGame :=
  let name := if truthy game.name then game.name.getD ""
              else basename (resolvePath path game.path)
  let cleanedPath := cleanGamePath game.path
  match buildSanitizedGameFileNameWith sanitize cleanedPath with
  | .error e => .error e
  | .ok sfn =>
    let image := if truthy game.image then some (cleanGamePath (game.image.getD ""))
                 else game.image
    let imageUrlEncoded := if truthy game.image then
                 some (urlEncode (cleanGamePath (game.image.getD ""))) else none
    let video := if truthy game.video then some (cleanGamePath (game.video.getD ""))
                 else game.video
    let videoUrlEncoded := if truthy game.video then
                 some (urlEncode (cleanGamePath (game.video.getD ""))) else none
    let g1 : NGame :=
      { name := name, path := cleanedPath,
        image := image, imageUrlEncoded := imageUrlEncoded,
        video := video, videoUrlEncoded := videoUrlEncoded,
        thumbnail := game.thumbnail, hidden := game.hidden,
        sanitizedFileName := sfn, generatedThumbnail := "" }
    .ok { g1 with generatedThumbnail := (tryToGenerateThumbnail env path g1).1 }

/-- Sequential processing of the deduplicated game list: the loop stops at
    the first propagated error, later games are not processed. -/
def processGames (sanitize : String → Except String String) (env : FsEnv)
    (path : String) : List Game → Except String (List NGame)
  | [] => .ok []
  | g :: gs =>
    match processGame sanitize env path g with
    | .error e => .error e
    | .ok n =>
      match processGames sanitize env path gs with
      | .error e => .error e
      | .ok ns => .ok (n :: ns)

/-- One set call of a JavaScript Map: an existing key keeps its position and
    gets the new value, a new key is appended at the end. -/
def mapSet (m : List (String × Game)) (k : String) (v : Game) :
    List (String × Game) :=
  if m.any (fun kv => kv.1 == k) then
    m.map (fun kv => if kv.1 == k then (k, v) else kv)
  else m ++ [(k, v)]

/-- Embedding of filterLastUniqueFilePath (generate.js lines 120-127): fill
    a JavaScript Map keyed by the raw path field, then take its values in
    Map iteration order. -/
def filterLastUniqueFilePath (games : List Game) : List Game :=
  (games.foldl (fun m g => mapSet m g.path g) []).map Prod.snd

/-- Lexicographic code-point comparison of character lists: the embedding of
    the JavaScript string less-than used by the sort comparators. -/
def jsLt : List Char → List Char → Bool
  | [], [] => false
  | [], _ :: _ => true
  | _ :: _, [] => false
  | a :: as, b :: bs => if a < b then true else if b < a then false else jsLt as bs

/-- JavaScript string less-than on the embedded strings. -/
def jsStringLt (a b : String) : Bool :=
  jsLt a.data b.data

/-- The ordering realized by the name comparator (generate.js lines 98-106):
    a game may stay before another exactly when the name of the second is
    not strictly less than the name of the first. -/
def nameLe (a b : NGame) : Prop :=
  jsStringLt b.name a.name = false

instance : DecidableRel nameLe := fun a b =>
  inferInstanceAs (Decidable (jsStringLt b.name a.name = false))

/-- Embedding of the comparator sort of processSystemDirectory (generate.js
    lines 98-106): a stable sort under the name comparator, modelled by a
    stable insertion sort (the ECMAScript sort is required to be stable). -/
def sortByName (games : List NGame) : List NGame :=
  games.insertionSort nameLe

/-- The hidden filter of processSystemDirectory (generate.js lines 92-97): a
    record is kept for the index listing unless its hidden field is truthy
    and equal to the string "true". -/
def isListedVisible (g : NGame) : Bool :=
  !(truthy g.hidden && g.hidden == some "true")

/-- Embedding of processSystemDirectory (generate.js lines 63-108),
    restricted to its pure data flow: deduplicate the raw list, normalize
    every surviving record and build its game detail page (first component:
    the records handed to buildGamePage, in processing order), then filter
    out hidden records and sort the rest by display name for the system
    index page (second component: the list handed to buildSystemPage). -/
def processSystemDirectory (sanitize : String → Except String String)
    (env : FsEnv) (path : String) (rawGames : List Game) :
    Except String (List NGame × List NGame) :=
  match processGames sanitize env path (filterLastUniqueFilePath rawGames) with
  | .error e => .error e
  | .ok ns => .ok (ns, sortByName (ns.filter isListedVisible))

/-- A directory entry of the target root as seen by the catalog walk. -/
structure DirEntry where
  name : String
  isDir : Bool
deriving DecidableEq

/-- A system record as constructed by the catalog walk (generate.js lines
    29-33). -/
structure SystemRec where
  id : String
  name : String
  logo : String
deriving DecidableEq

/-- Embedding of isSystemDirectory (generate.js lines 53-61): the directory
    contains a readable gamelist.xml. -/
def isSystemDirectory (env : FsEnv) (path : String) : Bool :=
  env.readable (resolvePath path "gamelist.xml")

/-- Construction of a system record from a recognized directory name
    (generate.js lines 29-33). -/
def mkSystem (supported : String → Option String) (id : String) : SystemRec :=
  { id := id, name := (supported id).getD "", logo := "/assets/" ++ id ++ ".svg" }

/-- One iteration of the catalog walk (generate.js lines 19-37): skip a name
    whose lookup value is not truthy, otherwise keep the entry when it is a
    directory containing a readable gamelist.xml. -/
def catalogStep (supported : String → Option String) (env : FsEnv)
    (root : String) (acc : List SystemRec) (e : DirEntry) : List SystemRec :=
  if !(truthy (supported e.name)) then acc
  else if e.isDir && isSystemDirectory env (resolvePath root e.name) then
    acc ++ [mkSystem supported e.name]
  else acc

/-- Embedding of the top-level catalog walk (generate.js lines 17-37): the
    ordered list of constructed system records; each kept entry is also
    handed to processSystemDirectory by the code. -/
def catalogWalk (supported : String → Option String) (env : FsEnv)
    (root : String) (entries : List DirEntry) : List SystemRec :=
  entries.foldl (catalogStep supported env root) []

/-- The ordering realized by the system comparator (generate.js lines
    39-49). -/
def sysLe (a b : SystemRec) : Prop :=
  jsStringLt b.name a.name = false

instance : DecidableRel sysLe := fun a b =>
  inferInstanceAs (Decidable (jsStringLt b.name a.name = false))

/-- Embedding of the system sort (generate.js lines 39-49): the same stable
    comparator sort by display name, applied before the home page is
    built. -/
def sortSystems (l : List SystemRec) : List SystemRec :=
  l.insertionSort sysLe

/-- The last raw entry carrying a given path, in document order. -/
def lastWithPath (games : List Game) (p : String) : Option Game :=
  (games.filter (fun g => g.path == p)).getLast?

/-- First-occurrence deduplication of a list of paths: the specification
    side order of the deduplicated list. -/
def dedupKeepFirst : List String → List String
  | [] => []
  | p :: ps => p :: (dedupKeepFirst ps).filter (fun q => !(q == p))

/-- New keys appended by a run of Map set calls, given the keys already
    seen: first occurrences not already present, in order. -/
def newKeys : List String → List String → List String
  | _, [] => []
  | seen, p :: ps => if p ∈ seen then newKeys seen ps else p :: newKeys (seen ++ [p]) ps

end Generate

namespace Generate

theorem any_key_eq_true (m : List (String × Game)) (k : String) :
    (m.any (fun kv => kv.1 == k)) = true ↔ k ∈ m.map Prod.fst := by
  rw [List.any_eq_true]
  constructor
  · rintro ⟨x, hx, hbeq⟩
    exact List.mem_map.mpr ⟨x, hx, by simpa using hbeq⟩
  · intro h
    rcases List.mem_map.mp h with ⟨x, hx, hfst⟩
    exact ⟨x, hx, by simp [hfst]⟩

theorem mapSet_fst_of_mem {m : List (String × Game)} {k : String} (v : Game)
    (h : k ∈ m.map Prod.fst) :
    (mapSet m k v).map Prod.fst = m.map Prod.fst := by
  unfold mapSet
  rw [if_pos ((any_key_eq_true m k).mpr h)]
  rw [List.map_map]
  apply List.map_congr_left
  intro kv _
  simp only [Function.comp_apply]
  by_cases hkv : kv.1 = k
  · rw [if_pos (by simp [hkv])]
    exact hkv.symm
  · rw [if_neg (by simp [hkv])]

theorem mapSet_fst_of_not_mem {m : List (String × Game)} {k : String} (v : Game)
    (h : k ∉ m.map Prod.fst) :
    (mapSet m k v).map Prod.fst = m.map Prod.fst ++ [k] := by
  unfold mapSet
  rw [if_neg (by rw [any_key_eq_true]; exact h)]
  simp

theorem find?_map_replace (m : List (String × Game)) (k : String) (v : Game) :
    (m.map (fun kv => if kv.1 == k then (k, v) else kv)).find? (fun kv => kv.1 == k)
      = if m.any (fun kv => kv.1 == k) then some (k, v) else none := by
  induction m with
  | nil => rfl
  | cons kv m ih =>
    by_cases hkv : kv.1 = k
    · simp only [List.map_cons, if_pos (show (kv.1 == k) = true by simp [hkv])]
      rw [List.find?_cons_of_pos _ (by simp)]
      simp [List.any_cons, hkv]
    · simp only [List.map_cons, if_neg (show ¬(kv.1 == k) = true by simp [hkv])]
      rw [List.find?_cons_of_neg _ (by simp [hkv])]
      simp only [List.any_cons, ih]
      simp only [show (kv.1 == k) = false by simp [hkv], Bool.false_or]

theorem find?_map_replace_ne (m : List (String × Game)) (k : String) (v : Game)
    (k' : String) (h : k' ≠ k) :
    (m.map (fun kv => if kv.1 == k then (k, v) else kv)).find? (fun kv => kv.1 == k')
      = m.find? (fun kv => kv.1 == k') := by
  induction m with
  | nil => rfl
  | cons kv m ih =>
    by_cases hkv : kv.1 = k
    · simp only [List.map_cons, if_pos (show (kv.1 == k) = true by simp [hkv])]
      rw [List.find?_cons_of_neg _ (by simp [Ne.symm h])]
      rw [List.find?_cons_of_neg _ (by simp [hkv, Ne.symm h])]
      exact ih
    · simp only [List.map_cons, if_neg (show ¬(kv.1 == k) = true by simp [hkv])]
      by_cases hk2 : kv.1 = k'
      · rw [List.find?_cons_of_pos _ (by simp [hk2]), List.find?_cons_of_pos _ (by simp [hk2])]
      · rw [List.find?_cons_of_neg _ (by simp [hk2]), List.find?_cons_of_neg _ (by simp [hk2])]
        exact ih

theorem find?_mapSet_self (m : List (String × Game)) (k : String) (v : Game) :
    (mapSet m k v).find? (fun kv => kv.1 == k) = some (k, v) := by
  unfold mapSet
  by_cases h : (m.any (fun kv => kv.1 == k)) = true
  · rw [if_pos h, find?_map_replace, if_pos h]
  · rw [if_neg h, List.find?_append]
    have h2 : m.find? (fun kv => kv.1 == k) = none := by
      rw [List.find?_eq_none]
      intro x hx hbeq
      exact h (List.any_eq_true.mpr ⟨x, hx, hbeq⟩)
    rw [h2]
    rw [List.find?_cons_of_pos _ (by simp)]
    rfl

theorem find?_mapSet_ne (m : List (String × Game)) (k : String) (v : Game)
    (k' : String) (h : k' ≠ k) :
    (mapSet m k v).find? (fun kv => kv.1 == k') = m.find? (fun kv => kv.1 == k') := by
  unfold mapSet
  by_cases hm : (m.any (fun kv => kv.1 == k)) = true
  · rw [if_pos hm, find?_map_replace_ne m k v k' h]
  · rw [if_neg hm, List.find?_append]
    rw [List.find?_cons_of_neg _ (by simp [Ne.symm h])]
    show (m.find? (fun kv => kv.1 == k')).or (List.find? _ []) = _
    rw [show List.find? (fun kv => (kv.1 == k')) ([] : List (String × Game)) = none from rfl]
    exact Option.or_none

theorem foldl_mapSet_find? (games : List Game) :
    ∀ (m : List (String × Game)) (k : String),
    (games.foldl (fun m g => mapSet m g.path g) m).find? (fun kv => kv.1 == k)
      = match lastWithPath games k with
        | some g => some (k, g)
        | none => m.find? (fun kv => kv.1 == k) := by
  induction games with
  | nil =>
    intro m k
    simp [lastWithPath]
  | cons g gs ih =>
    intro m k
    rw [List.foldl_cons, ih (mapSet m g.path g) k]
    by_cases hg : g.path = k
    · cases hfil : (gs.filter (fun x => x.path == k)) with
      | nil =>
        have hl2 : lastWithPath gs k = none := by simp [lastWithPath, hfil]
        have hl1 : lastWithPath (g :: gs) k = some g := by
          simp [lastWithPath, List.filter_cons, hg, hfil]
        rw [hl2, hl1]
        subst hg
        exact find?_mapSet_self m g.path g
      | cons a l =>
        have hl2 : lastWithPath gs k = (a :: l).getLast? := by
          unfold lastWithPath
          rw [hfil]
        have hl1 : lastWithPath (g :: gs) k = (a :: l).getLast? := by
          unfold lastWithPath
          rw [List.filter_cons, if_pos (show (g.path == k) = true by simp [hg]), hfil]
          exact List.getLast?_cons_cons
        rw [hl2, hl1]
        cases hlast : (a :: l).getLast? with
        | none =>
          rw [List.getLast?_eq_none_iff] at hlast
          cases hlast
        | some x => rfl
    · have hl : lastWithPath (g :: gs) k = lastWithPath gs k := by
        simp [lastWithPath, List.filter_cons, hg]
      rw [hl]
      cases hlw : lastWithPath gs k with
      | some x => rfl
      | none => exact find?_mapSet_ne m g.path g k (fun he => hg he.symm)

theorem foldl_mapSet_fst (games : List Game) :
    ∀ m : List (String × Game),
    (games.foldl (fun m g => mapSet m g.path g) m).map Prod.fst
      = m.map Prod.fst ++ newKeys (m.map Prod.fst) (games.map (fun g => g.path)) := by
  induction games with
  | nil => intro m; simp [newKeys]
  | cons g gs ih =>
    intro m
    rw [List.foldl_cons, ih (mapSet m g.path g)]
    by_cases hg : g.path ∈ m.map Prod.fst
    · rw [mapSet_fst_of_mem g hg]
      simp [newKeys, hg]
    · rw [mapSet_fst_of_not_mem g hg]
      simp [newKeys, hg, List.append_assoc]

theorem newKeys_nodup_aux : ∀ (l : List String) (seen : List String),
    (newKeys seen l).Nodup ∧ ∀ x ∈ newKeys seen l, x ∉ seen := by
  intro l
  induction l with
  | nil => intro seen; simp [newKeys]
  | cons p ps ih =>
    intro seen
    by_cases hp : p ∈ seen
    · simpa [newKeys, hp] using ih seen
    · have h2 := ih (seen ++ [p])
      simp only [newKeys, if_neg hp]
      constructor
      · refine List.nodup_cons.mpr ⟨?_, h2.1⟩
        intro hmem
        exact (h2.2 p hmem) (by simp)
      · intro x hx
        rcases List.mem_cons.mp hx with rfl | hx2
        · exact hp
        · intro hxs
          exact (h2.2 x hx2) (List.mem_append.mpr (Or.inl hxs))

theorem foldl_mapSet_pathEq (games : List Game) :
    ∀ m : List (String × Game), (∀ kv ∈ m, kv.2.path = kv.1) →
    ∀ kv ∈ games.foldl (fun m g => mapSet m g.path g) m, kv.2.path = kv.1 := by
  induction games with
  | nil => intro m h; simpa using h
  | cons g gs ih =>
    intro m h
    rw [List.foldl_cons]
    apply ih
    intro kv hkv
    unfold mapSet at hkv
    split at hkv
    · rcases List.mem_map.mp hkv with ⟨kv0, hkv0, rfl⟩
      by_cases h0 : kv0.1 = g.path
      · rw [if_pos (by simp [h0])]
      · rw [if_neg (by simp [h0])]
        exact h kv0 hkv0
    · rcases List.mem_append.mp hkv with h1 | h1
      · exact h kv h1
      · rcases List.mem_singleton.mp h1 with rfl
        rfl

theorem find?_of_mem_nodup : ∀ (m : List (String × Game)),
    (m.map Prod.fst).Nodup → ∀ kv ∈ m, m.find? (fun x => x.1 == kv.1) = some kv := by
  intro m
  induction m with
  | nil => intro _ kv hm; cases hm
  | cons a m ih =>
    intro hnd kv hm
    rw [List.map_cons] at hnd
    have hnd2 := List.nodup_cons.mp hnd
    rcases List.mem_cons.mp hm with rfl | hm2
    · exact List.find?_cons_of_pos _ (by simp)
    · rw [List.find?_cons_of_neg]
      · exact ih hnd2.2 kv hm2
      · intro hbeq
        have heq : a.1 = kv.1 := by simpa using hbeq
        exact hnd2.1 (heq ▸ List.mem_map.mpr ⟨kv, hm2, rfl⟩)

theorem filterLast_map_path (games : List Game) :
    (filterLastUniqueFilePath games).map (fun g => g.path)
      = newKeys [] (games.map (fun g => g.path)) := by
  have hpeq : ∀ kv ∈ games.foldl (fun m g => mapSet m g.path g) [], kv.2.path = kv.1 :=
    foldl_mapSet_pathEq games [] (by simp)
  have hkeys := foldl_mapSet_fst games []
  unfold filterLastUniqueFilePath
  rw [List.map_map]
  calc (games.foldl (fun m g => mapSet m g.path g) []).map ((fun g => g.path) ∘ Prod.snd)
      = (games.foldl (fun m g => mapSet m g.path g) []).map Prod.fst :=
        List.map_congr_left (fun kv hkv => hpeq kv hkv)
    _ = newKeys [] (games.map (fun g => g.path)) := by simpa using hkeys

end Generate

namespace Generate

theorem newKeys_eq_dedupKeepFirst : ∀ (l : List String) (seen : List String),
    newKeys seen l = (dedupKeepFirst l).filter (fun q => !(decide (q ∈ seen))) := by
  intro l
  induction l with
  | nil => intro seen; simp [newKeys, dedupKeepFirst]
  | cons p ps ih =>
    intro seen
    by_cases hp : p ∈ seen
    · simp only [newKeys, if_pos hp, dedupKeepFirst, List.filter_cons]
      rw [if_neg (by simp [hp])]
      rw [ih seen, List.filter_filter]
      apply List.filter_congr
      intro x _
      by_cases hxs : x ∈ seen
      · simp [hxs]
      · have hxp : ¬(x == p) = true := by
          simp only [beq_iff_eq]
          intro he
          exact hxs (he ▸ hp)
        simp [hxs, hxp]
    · simp only [newKeys, if_neg hp, dedupKeepFirst, List.filter_cons]
      rw [if_pos (by simp [hp])]
      congr 1
      rw [ih (seen ++ [p]), List.filter_filter]
      apply List.filter_congr
      intro x _
      by_cases hxp : x = p
      · simp [hxp]
      · by_cases hxs : x ∈ seen
        · simp [hxs, hxp, List.mem_append]
        · simp [hxs, hxp, List.mem_append]

/-- C1: for every raw game list, after deduplication by
    filterLastUniqueFilePath no two entries share a path string, every raw
    path is still represented, and the entry kept for each path is exactly
    the last raw entry carrying that path in document order. -/
theorem C1_dedup_keeps_last_unique (games : List Game) :
    ((filterLastUniqueFilePath games).map (fun g => g.path)).Nodup
    ∧ (∀ g ∈ filterLastUniqueFilePath games, lastWithPath games g.path = some g)
    ∧ (∀ p ∈ games.map (fun g => g.path),
        ∃ g ∈ filterLastUniqueFilePath games, g.path = p) := by
  have hpeq : ∀ kv ∈ games.foldl (fun m g => mapSet m g.path g) [], kv.2.path = kv.1 :=
    foldl_mapSet_pathEq games [] (by simp)
  have hnd : ((games.foldl (fun m g => mapSet m g.path g) []).map Prod.fst).Nodup := by
    have := foldl_mapSet_fst games []
    simp only [List.map_nil, List.nil_append] at this
    rw [this]
    exact (newKeys_nodup_aux (games.map (fun g => g.path)) []).1
  refine ⟨?_, ?_, ?_⟩
  · have hmp := filterLast_map_path games
    rw [hmp]
    exact (newKeys_nodup_aux (games.map (fun g => g.path)) []).1
  · intro g hg
    rcases List.mem_map.mp hg with ⟨kv, hkv, rfl⟩
    have h1 := find?_of_mem_nodup _ hnd kv hkv
    have h2 := foldl_mapSet_find? games [] kv.1
    rw [h1] at h2
    cases hlw : lastWithPath games kv.1 with
    | none =>
      rw [hlw] at h2
      simp [List.find?] at h2
    | some x =>
      rw [hlw] at h2
      have hx : kv = (kv.1, x) := by exact Option.some.inj h2
      rw [hpeq kv hkv, hlw]
      exact congrArg some (congrArg Prod.snd hx).symm
  · intro p hp
    rcases List.mem_map.mp hp with ⟨g0, hg0, rfl⟩
    cases hlast : (games.filter (fun x => x.path == g0.path)).getLast? with
    | none =>
      rw [List.getLast?_eq_none_iff] at hlast
      have : g0 ∈ games.filter (fun x => x.path == g0.path) :=
        List.mem_filter.mpr ⟨hg0, by simp⟩
      rw [hlast] at this
      cases this
    | some glast =>
      have hlw : lastWithPath games g0.path = some glast := by
        unfold lastWithPath
        exact hlast
      have h2 := foldl_mapSet_find? games [] g0.path
      rw [hlw] at h2
      have hmem := List.mem_of_find?_eq_some h2
      refine ⟨glast, List.mem_map.mpr ⟨(g0.path, glast), hmem, rfl⟩, hpeq _ hmem⟩

/-- Witness for C1: on a list with a duplicated path "a", the kept entry at
    path "a" is the later raw entry carrying name "2". -/
theorem C1_witness :
    ({ path := "a", name := some "2" } : Game)
      ∈ filterLastUniqueFilePath
          [{ path := "a", name := some "1" }, { path := "b" }, { path := "a", name := some "2" }]
    ∧ lastWithPath
        [{ path := "a", name := some "1" }, { path := "b" }, { path := "a", name := some "2" }]
        ({ path := "a", name := some "2" } : Game).path
        = some { path := "a", name := some "2" } :=
  ⟨by decide,
   (C1_dedup_keeps_last_unique
      [{ path := "a", name := some "1" }, { path := "b" }, { path := "a", name := some "2" }]).2.1
      _ (by decide)⟩

/-- C10: the deduplicated list enumerates paths in first-occurrence order:
    its path sequence equals the first-occurrence deduplication of the raw
    path sequence, so the kept entry for a duplicated path sits at the
    position of the first occurrence of that path, and distinct paths keep
    the relative order of their first occurrences. -/
theorem C10_dedup_first_occurrence_order (games : List Game) :
    (filterLastUniqueFilePath games).map (fun g => g.path)
      = dedupKeepFirst (games.map (fun g => g.path)) := by
  rw [filterLast_map_path games, newKeys_eq_dedupKeepFirst]
  have : ∀ q : String, (!(decide (q ∈ ([] : List String)))) = true := by
    intro q
    simp
  calc (dedupKeepFirst (games.map fun g => g.path)).filter
          (fun q => !(decide (q ∈ ([] : List String))))
      = (dedupKeepFirst (games.map fun g => g.path)).filter (fun _ => true) :=
        List.filter_congr (fun x _ => this x)
    _ = dedupKeepFirst (games.map fun g => g.path) := List.filter_true _

end Generate

namespace Generate

theorem mem_ite_list {c : Char} {P : Prop} [Decidable P] {a b : List Char}
    (h : c ∈ if P then a else b) : c ∈ a ∨ c ∈ b := by
  split at h
  · exact Or.inl h
  · exact Or.inr h

theorem mem_flatMap_replace {repl : List Char} {p : Char → Bool} {l : List Char} {c : Char}
    (h : c ∈ l.flatMap (fun x => if p x then repl else [x])) :
    c ∈ repl ∨ (c ∈ l ∧ p c = false) := by
  rcases List.mem_flatMap.mp h with ⟨a, ha, hc⟩
  by_cases hp : p a = true
  · rw [if_pos hp] at hc
    exact Or.inl hc
  · rw [if_neg hp] at hc
    rcases List.mem_singleton.mp hc with rfl
    simp only [Bool.not_eq_true] at hp
    exact Or.inr ⟨ha, hp⟩

theorem mem_truncateUtf8 {c : Char} : ∀ (n : Nat) (l : List Char),
    c ∈ truncateUtf8 n l → c ∈ l := by
  intro n l
  induction l generalizing n with
  | nil =>
    intro h
    simp [truncateUtf8] at h
  | cons a l ih =>
    intro h
    simp only [truncateUtf8] at h
    split at h
    · rcases List.mem_cons.mp h with rfl | h2
      · exact List.mem_cons_self _ _
      · exact List.mem_cons_of_mem _ (ih _ h2)
    · cases h

theorem mem_replaceWindowsTrailing {repl l : List Char} {c : Char}
    (h : c ∈ replaceWindowsTrailing repl l) : c ∈ repl ∨ c ∈ l := by
  simp only [replaceWindowsTrailing] at h
  split at h
  · exact Or.inr h
  · rcases List.mem_append.mp h with h1 | h1
    · refine Or.inr ?_
      have h2 : c ∈ List.dropWhile dotOrSpace l.reverse := List.mem_reverse.mp h1
      have h3 : c ∈ l.reverse := (List.dropWhile_sublist dotOrSpace).subset h2
      exact List.mem_reverse.mp h3
    · exact Or.inl h1

theorem mem_sanitizeOnce {repl l : List Char} {c : Char} (h : c ∈ sanitizeOnce repl l) :
    c ∈ repl ∨ (c ∈ l ∧ illegalChar c = false ∧ controlChar c = false) := by
  simp only [sanitizeOnce] at h
  have h5 := mem_truncateUtf8 _ _ h
  rcases mem_replaceWindowsTrailing h5 with hr | h4
  · exact Or.inl hr
  rcases mem_ite_list h4 with hr | h3
  · exact Or.inl hr
  rcases mem_ite_list h3 with hr | h2
  · exact Or.inl hr
  rcases mem_flatMap_replace h2 with hr | ⟨h1, hctrl⟩
  · exact Or.inl hr
  rcases mem_flatMap_replace h1 with hr | ⟨h0, hill⟩
  · exact Or.inl hr
  exact Or.inr ⟨h0, hill, hctrl⟩

theorem string_data_mk (l : List Char) : (String.mk l).data = l := rfl

theorem mem_sanitizeFileName {s : String} {c : Char} (h : c ∈ (sanitizeFileName s).data) :
    c = '-' ∨ (c ∈ s.data ∧ illegalChar c = false ∧ controlChar c = false) := by
  simp only [sanitizeFileName, string_data_mk] at h
  rcases mem_sanitizeOnce h with h0 | ⟨h1, hill, hctrl⟩
  · cases h0
  rcases mem_sanitizeOnce h1 with h0 | ⟨h3, _, _⟩
  · rcases List.mem_singleton.mp h0 with rfl
    exact Or.inl rfl
  · exact Or.inr ⟨h3, hill, hctrl⟩

theorem mem_replaceAll {s : String} {x r c : Char} (h : c ∈ (replaceAll s x r).data) :
    c = r ∨ (c ∈ s.data ∧ c ≠ x) := by
  have h2 : c ∈ s.data.map (fun y => if y == x then r else y) := h
  rcases List.mem_map.mp h2 with ⟨a, ha, hc⟩
  by_cases hax : a = x
  · rw [if_pos (by simp [hax])] at hc
    exact Or.inl hc.symm
  · rw [if_neg (by simp [hax])] at hc
    rcases hc with rfl
    exact Or.inr ⟨ha, hax⟩

/-- C2: for every input path string, the sanitized stem produced by
    buildSanitizedGameFileName contains no occurrence of the hash, percent,
    bang, square-bracket or plus characters, and no path separator (slash or
    backslash). -/
theorem C2_sanitized_stem_char_free (path : String) :
    ∀ c ∈ (buildSanitizedGameFileName path).data,
      c ≠ '#' ∧ c ≠ '%' ∧ c ≠ '!' ∧ c ≠ '[' ∧ c ≠ ']' ∧ c ≠ '+'
      ∧ c ≠ '/' ∧ c ≠ Char.ofNat 92 := by
  intro c hc
  have hc6 : c ∈ (replaceAll (replaceAll (replaceAll (replaceAll (replaceAll (replaceAll
      (sanitizeFileName path) '#' '-') '%' '-') '!' '-') '[' '-') ']' '-') '+' '-').data := hc
  rcases mem_replaceAll hc6 with rfl | ⟨hc5, hplus⟩
  · exact ⟨by decide, by decide, by decide, by decide, by decide, by decide, by decide, by decide⟩
  rcases mem_replaceAll hc5 with rfl | ⟨hc4, hrb⟩
  · exact ⟨by decide, by decide, by decide, by decide, by decide, by decide, by decide, by decide⟩
  rcases mem_replaceAll hc4 with rfl | ⟨hc3, hlb⟩
  · exact ⟨by decide, by decide, by decide, by decide, by decide, by decide, by decide, by decide⟩
  rcases mem_replaceAll hc3 with rfl | ⟨hc2, hbang⟩
  · exact ⟨by decide, by decide, by decide, by decide, by decide, by decide, by decide, by decide⟩
  rcases mem_replaceAll hc2 with rfl | ⟨hc1, hpct⟩
  · exact ⟨by decide, by decide, by decide, by decide, by decide, by decide, by decide, by decide⟩
  rcases mem_replaceAll hc1 with rfl | ⟨hc0, hhash⟩
  · exact ⟨by decide, by decide, by decide, by decide, by decide, by decide, by decide, by decide⟩
  rcases mem_sanitizeFileName hc0 with rfl | ⟨_, hill, _⟩
  · exact ⟨by decide, by decide, by decide, by decide, by decide, by decide, by decide, by decide⟩
  refine ⟨hhash, hpct, hbang, hlb, hrb, hplus, ?_, ?_⟩
  · intro he
    rw [he] at hill
    exact absurd hill (by decide)
  · intro he
    rw [he] at hill
    exact absurd hill (by decide)

/-- Witness for C2: a concrete character of a concrete sanitized stem, shown
    to avoid every excluded character. -/
theorem C2_witness :
    'a' ∈ (buildSanitizedGameFileName "a#b/c").data
    ∧ ('a' ≠ '#' ∧ 'a' ≠ '%' ∧ 'a' ≠ '!' ∧ 'a' ≠ '[' ∧ 'a' ≠ ']' ∧ 'a' ≠ '+'
        ∧ 'a' ≠ '/' ∧ 'a' ≠ Char.ofNat 92) :=
  ⟨by decide, C2_sanitized_stem_char_free "a#b/c" 'a' (by decide)⟩

end Generate

namespace Generate

theorem processGames_ok (env : FsEnv) (path : String) : ∀ gs : List Game,
    ∃ ns, processGames sanitizeFileNameE env path gs = .ok ns ∧ ns.length = gs.length := by
  intro gs
  induction gs with
  | nil => exact ⟨[], rfl, rfl⟩
  | cons g gs ih =>
    rcases ih with ⟨ns, hns, hlen⟩
    obtain ⟨n, hn⟩ : ∃ n, processGame sanitizeFileNameE env path g = .ok n := ⟨_, rfl⟩
    refine ⟨n :: ns, ?_, by simp [hlen]⟩
    show (match processGame sanitizeFileNameE env path g with
      | Except.error e => Except.error e
      | Except.ok n =>
        match processGames sanitizeFileNameE env path gs with
        | Except.error e => Except.error e
        | Except.ok ns => Except.ok (n :: ns)) = Except.ok (n :: ns)
    rw [hn, hns]

/-- C3: a sanitization failure propagates out of the per-game normalization
    and aborts the processing of the remaining games, while with the real
    always-succeeding transform the run never fails, and every
    thumbnail-path problem (absent source field, unreadable source, failing
    load/resize/write chain) is caught and yields the placeholder
    reference. -/
theorem C3_error_handling :
    (∀ (sanitize : String → Except String String) (env : FsEnv) (path : String)
        (g : Game) (e : String),
        sanitize (cleanGamePath g.path) = .error e →
        processGame sanitize env path g = .error e)
    ∧ (∀ (sanitize : String → Except String String) (env : FsEnv) (path : String)
        (g : Game) (gs : List Game) (e : String),
        processGame sanitize env path g = .error e →
        processGames sanitize env path (g :: gs) = .error e)
    ∧ (∀ (env : FsEnv) (path : String) (gs : List Game),
        ∃ ns, processGames sanitizeFileNameE env path gs = .ok ns
          ∧ ns.length = gs.length)
    ∧ (∀ (env : FsEnv) (path : String) (g : NGame),
        chooseOriginalImage g = none →
        tryToGenerateThumbnail env path g = (placeholder, false))
    ∧ (∀ (env : FsEnv) (path : String) (g : NGame) (oi : String),
        chooseOriginalImage g = some oi →
        env.readable (resolvePath path oi) = false →
        tryToGenerateThumbnail env path g = (placeholder, false))
    ∧ (∀ (env : FsEnv) (path : String) (g : NGame) (oi : String),
        chooseOriginalImage g = some oi →
        env.readable (resolvePath path oi) = true →
        env.readable (resolvePath path (g.sanitizedFileName ++ "-100.png")) = false →
        env.jimpOk (resolvePath path oi) = false →
        tryToGenerateThumbnail env path g = (placeholder, true)) := by
  refine ⟨?_, ?_, ?_, ?_, ?_, ?_⟩
  · intro sanitize env path g e h
    simp [processGame, buildSanitizedGameFileNameWith, h]
  · intro sanitize env path g gs e h
    simp [processGames, h]
  · intro env path gs
    exact processGames_ok env path gs
  · intro env path g h
    simp [tryToGenerateThumbnail, h]
  · intro env path g oi h1 h2
    simp [tryToGenerateThumbnail, h1, h2]
  · intro env path g oi h1 h2 h3 h4
    simp [tryToGenerateThumbnail, h1, h2, h3, h4]

/-- Witness for C3: each branch of the error-handling taxonomy exercised at
    a concrete input. -/
theorem C3_witness :
    processGame (fun _ => .error "boom") ⟨fun _ => false, fun _ => false⟩ "/r"
        { path := "a" } = .error "boom"
    ∧ processGames (fun _ => .error "boom") ⟨fun _ => false, fun _ => false⟩ "/r"
        [{ path := "a" }, { path := "b" }] = .error "boom"
    ∧ (∃ ns, processGames sanitizeFileNameE ⟨fun _ => false, fun _ => false⟩ "/r"
        [{ path := "a" }] = .ok ns ∧ ns.length = [({ path := "a" } : Game)].length)
    ∧ tryToGenerateThumbnail ⟨fun _ => false, fun _ => false⟩ "/r" {}
        = (placeholder, false)
    ∧ tryToGenerateThumbnail ⟨fun _ => false, fun _ => false⟩ "/r"
        { image := some "i.png" } = (placeholder, false)
    ∧ tryToGenerateThumbnail ⟨fun p => p == "/r/i.png", fun _ => false⟩ "/r"
        { image := some "i.png" } = (placeholder, true) :=
  ⟨C3_error_handling.1 _ _ _ _ _ rfl,
   C3_error_handling.2.1 _ _ _ _ _ _ (C3_error_handling.1 _ _ _ _ _ rfl),
   C3_error_handling.2.2.1 _ _ _,
   C3_error_handling.2.2.2.1 _ _ _ rfl,
   C3_error_handling.2.2.2.2.1 ⟨fun _ => false, fun _ => false⟩ "/r"
     { image := some "i.png" } "i.png" (by decide) rfl,
   C3_error_handling.2.2.2.2.2 ⟨fun p => p == "/r/i.png", fun _ => false⟩ "/r"
     { image := some "i.png" } "i.png" (by decide) (by decide) (by decide) rfl⟩

end Generate

namespace Generate

theorem isListedVisible_iff (g : NGame) :
    isListedVisible g = true ↔ g.hidden ≠ some "true" := by
  cases hh : g.hidden with
  | none => simp [isListedVisible, truthy, hh]
  | some s =>
    by_cases hs : s = "true"
    · subst hs
      simp only [isListedVisible, truthy, hh]
      decide
    · simp [isListedVisible, truthy, hh, hs]

/-- C4: every normalized record of a system receives a game detail page
    (the first component keeps one entry per deduplicated raw entry, hidden
    ones included), and a record appears in the system index listing exactly
    when its hidden field is not the string "true". -/
theorem C4_hidden_listing (env : FsEnv) (path : String) (rawGames : List Game)
    (pages listing : List NGame)
    (h : processSystemDirectory sanitizeFileNameE env path rawGames = .ok (pages, listing)) :
    pages.length = (filterLastUniqueFilePath rawGames).length
    ∧ (∀ g ∈ listing, g ∈ pages)
    ∧ (∀ g ∈ pages, (g ∈ listing ↔ g.hidden ≠ some "true")) := by
  obtain ⟨ns, hns, hlen⟩ := processGames_ok env path (filterLastUniqueFilePath rawGames)
  have h2 : processSystemDirectory sanitizeFileNameE env path rawGames
      = .ok (ns, sortByName (ns.filter isListedVisible)) := by
    unfold processSystemDirectory
    rw [hns]
  rw [h2] at h
  injection h with h3
  rw [Prod.mk.injEq] at h3
  obtain ⟨rfl, rfl⟩ := h3
  have hperm := List.perm_insertionSort nameLe (ns.filter isListedVisible)
  refine ⟨hlen, ?_, ?_⟩
  · intro g hg
    simp only [sortByName] at hg
    exact (List.mem_filter.mp (hperm.mem_iff.mp hg)).1
  · intro g hgp
    constructor
    · intro hgl
      simp only [sortByName] at hgl
      exact (isListedVisible_iff g).mp (List.mem_filter.mp (hperm.mem_iff.mp hgl)).2
    · intro hneq
      simp only [sortByName]
      exact hperm.mem_iff.mpr
        (List.mem_filter.mpr ⟨hgp, (isListedVisible_iff g).mpr hneq⟩)

/-- Witness for C4: a two-game system where the hidden game gets a page but
    not an index entry. -/
theorem C4_witness :
    processSystemDirectory sanitizeFileNameE ⟨fun _ => false, fun _ => false⟩ "/r"
        [{ path := "a", hidden := some "true" }, { path := "b" }]
      = .ok
        ([{ name := "a", path := "a", hidden := some "true", sanitizedFileName := "a",
            generatedThumbnail := "https://via.placeholder.com/100" },
          { name := "b", path := "b", sanitizedFileName := "b",
            generatedThumbnail := "https://via.placeholder.com/100" }],
         [{ name := "b", path := "b", sanitizedFileName := "b",
            generatedThumbnail := "https://via.placeholder.com/100" }])
    ∧ (({ name := "a", path := "a", hidden := some "true", sanitizedFileName := "a",
          generatedThumbnail := "https://via.placeholder.com/100" } : NGame)
        ∈ [({ name := "b", path := "b", sanitizedFileName := "b",
              generatedThumbnail := "https://via.placeholder.com/100" } : NGame)]
      ↔ ({ name := "a", path := "a", hidden := some "true", sanitizedFileName := "a",
           generatedThumbnail := "https://via.placeholder.com/100" } : NGame).hidden
          ≠ some "true") :=
  ⟨by decide,
   (C4_hidden_listing ⟨fun _ => false, fun _ => false⟩ "/r"
      [{ path := "a", hidden := some "true" }, { path := "b" }]
      [{ name := "a", path := "a", hidden := some "true", sanitizedFileName := "a",
         generatedThumbnail := "https://via.placeholder.com/100" },
       { name := "b", path := "b", sanitizedFileName := "b",
         generatedThumbnail := "https://via.placeholder.com/100" }]
      [{ name := "b", path := "b", sanitizedFileName := "b",
         generatedThumbnail := "https://via.placeholder.com/100" }]
      (by decide)).2.2 _ (by decide)⟩

end Generate

namespace Generate

theorem jsLt_irrefl : ∀ l : List Char, jsLt l l = false := by
  intro l
  induction l with
  | nil => rfl
  | cons a as ih => simp [jsLt, ih]

theorem jsLt_asymm : ∀ a b : List Char, jsLt a b = true → jsLt b a = false := by
  intro a
  induction a with
  | nil =>
    intro b h
    cases b with
    | nil => simp [jsLt] at h
    | cons y ys => simp [jsLt]
  | cons x xs ih =>
    intro b h
    cases b with
    | nil => simp [jsLt] at h
    | cons y ys =>
      simp only [jsLt] at h ⊢
      by_cases hxy : x < y
      · rw [if_neg (asymm hxy), if_pos hxy]
      · rw [if_neg hxy] at h
        by_cases hyx : y < x
        · rw [if_pos hyx] at h
          cases h
        · rw [if_neg hyx] at h
          rw [if_neg hyx, if_neg hxy]
          exact ih ys h

theorem jsLt_cotrans : ∀ a c : List Char, jsLt a c = true →
    ∀ b : List Char, jsLt a b = true ∨ jsLt b c = true := by
  intro a
  induction a with
  | nil =>
    intro c h b
    cases c with
    | nil => simp [jsLt] at h
    | cons y cs =>
      cases b with
      | nil => exact Or.inr (by simp [jsLt])
      | cons z bs => exact Or.inl (by simp [jsLt])
  | cons x as ih =>
    intro c h b
    cases c with
    | nil => simp [jsLt] at h
    | cons y cs =>
      cases b with
      | nil => exact Or.inr (by simp [jsLt])
      | cons z bs =>
        simp only [jsLt] at h ⊢
        by_cases hxy : x < y
        · by_cases hxz : x < z
          · exact Or.inl (by rw [if_pos hxz])
          · refine Or.inr ?_
            have hzy : z < y := lt_of_le_of_lt (le_of_not_lt hxz) hxy
            rw [if_pos hzy]
        · rw [if_neg hxy] at h
          by_cases hyx : y < x
          · rw [if_pos hyx] at h
            cases h
          · rw [if_neg hyx] at h
            have hxey : x = y := le_antisymm (le_of_not_lt hyx) (le_of_not_lt hxy)
            by_cases hxz : x < z
            · exact Or.inl (by rw [if_pos hxz])
            · by_cases hzx : z < x
              · refine Or.inr ?_
                rw [if_pos (hxey ▸ hzx)]
              · have hzex : z = x := le_antisymm (le_of_not_lt hxz) (le_of_not_lt hzx)
                rcases ih cs h bs with h1 | h1
                · refine Or.inl ?_
                  rw [if_neg hxz, if_neg hzx]
                  exact h1
                · refine Or.inr ?_
                  have hzy : ¬ z < y := hxey ▸ hzex ▸ lt_irrefl x
                  have hyz : ¬ y < z := hxey ▸ hzex ▸ lt_irrefl x
                  rw [if_neg hzy, if_neg hyz]
                  exact h1

theorem nameLe_total : ∀ a b : NGame, nameLe a b ∨ nameLe b a := by
  intro a b
  by_cases h : jsStringLt b.name a.name = true
  · exact Or.inr (jsLt_asymm _ _ h)
  · rw [Bool.not_eq_true] at h
    exact Or.inl h

theorem nameLe_trans : ∀ a b c : NGame, nameLe a b → nameLe b c → nameLe a c := by
  intro a b c hab hbc
  unfold nameLe at *
  by_cases h : jsStringLt c.name a.name = true
  · rcases jsLt_cotrans _ _ h b.name.data with h1 | h1
    · rw [show jsStringLt c.name b.name = true from h1] at hbc
      cases hbc
    · rw [show jsStringLt b.name a.name = true from h1] at hab
      cases hab
  · rw [Bool.not_eq_true] at h
    exact h

/-- C5 counterexample: two visible games sharing the display name "X"; the
    game with path "a" precedes the game with path "b" in the index listing
    although its display name is not lexicographically less than the name of
    the other, refuting the stated if-and-only-if. -/
theorem C5_counterexample :
    (processSystemDirectory sanitizeFileNameE ⟨fun _ => false, fun _ => false⟩ "/r"
        [{ path := "a", name := some "X" }, { path := "b", name := some "X" }]).map
        (fun pr => pr.2.map (fun g => (g.name, g.path)))
      = .ok [("X", "a"), ("X", "b")]
    ∧ jsStringLt "X" "X" = false :=
  ⟨by decide, by decide⟩

/-- C5 as amended: the index listing is sorted by display name in the sense
    that an earlier entry never has a strictly greater name, and a strictly
    smaller name forces an earlier position; the stated equivalence holds
    whenever the two display names differ, while games with equal names may
    appear in either relative order. -/
theorem C5_amended_sorted (env : FsEnv) (path : String) (rawGames : List Game)
    (pages listing : List NGame)
    (h : processSystemDirectory sanitizeFileNameE env path rawGames = .ok (pages, listing)) :
    ∀ i j (hi : i < listing.length) (hj : j < listing.length),
      (i < j → jsStringLt (listing[j]).name (listing[i]).name = false)
      ∧ (jsStringLt (listing[i]).name (listing[j]).name = true → i < j) := by
  obtain ⟨ns, hns, _⟩ := processGames_ok env path (filterLastUniqueFilePath rawGames)
  have h2 : processSystemDirectory sanitizeFileNameE env path rawGames
      = .ok (ns, sortByName (ns.filter isListedVisible)) := by
    unfold processSystemDirectory
    rw [hns]
  rw [h2] at h
  injection h with h3
  rw [Prod.mk.injEq] at h3
  obtain ⟨rfl, rfl⟩ := h3
  haveI : IsTotal NGame nameLe := ⟨nameLe_total⟩
  haveI : IsTrans NGame nameLe := ⟨nameLe_trans⟩
  have hsorted := List.sorted_insertionSort nameLe (ns.filter isListedVisible)
  rw [List.Sorted, List.pairwise_iff_getElem] at hsorted
  intro i j hi hj
  have hfirst : i < j →
      jsStringLt ((sortByName (ns.filter isListedVisible))[j]).name
        ((sortByName (ns.filter isListedVisible))[i]).name = false :=
    fun hij => hsorted i j hi hj hij
  refine ⟨hfirst, ?_⟩
  intro hlt
  by_contra hnot
  rcases lt_or_eq_of_le (Nat.le_of_not_lt hnot) with hji | hji
  · have hx2 : jsStringLt ((sortByName (ns.filter isListedVisible))[i]).name
        ((sortByName (ns.filter isListedVisible))[j]).name = false :=
      hsorted j i hj hi hji
    rw [hx2] at hlt
    cases hlt
  · subst hji
    simp only [jsStringLt] at hlt
    rw [jsLt_irrefl] at hlt
    cases hlt

/-- Witness for C5 as amended: a concrete two-game listing sorted by name,
    where the later entry is not smaller than the earlier one. -/
theorem C5_witness :
    processSystemDirectory sanitizeFileNameE ⟨fun _ => false, fun _ => false⟩ "/r"
        [{ path := "b", name := some "B" }, { path := "a", name := some "A" }]
      = .ok
        ([{ name := "B", path := "b", sanitizedFileName := "b",
            generatedThumbnail := "https://via.placeholder.com/100" },
          { name := "A", path := "a", sanitizedFileName := "a",
            generatedThumbnail := "https://via.placeholder.com/100" }],
         [{ name := "A", path := "a", sanitizedFileName := "a",
            generatedThumbnail := "https://via.placeholder.com/100" },
          { name := "B", path := "b", sanitizedFileName := "b",
            generatedThumbnail := "https://via.placeholder.com/100" }])
    ∧ jsStringLt "B" "A" = false :=
  ⟨by decide,
   (C5_amended_sorted ⟨fun _ => false, fun _ => false⟩ "/r"
      [{ path := "b", name := some "B" }, { path := "a", name := some "A" }]
      [{ name := "B", path := "b", sanitizedFileName := "b",
         generatedThumbnail := "https://via.placeholder.com/100" },
       { name := "A", path := "a", sanitizedFileName := "a",
         generatedThumbnail := "https://via.placeholder.com/100" }]
      [{ name := "A", path := "a", sanitizedFileName := "a",
         generatedThumbnail := "https://via.placeholder.com/100" },
       { name := "B", path := "b", sanitizedFileName := "b",
         generatedThumbnail := "https://via.placeholder.com/100" }]
      (by decide) 0 1 (by decide) (by decide)).1 (by decide)⟩

end Generate

namespace Generate

/-- C6: when a readable source image is selected and a file already exists
    at the derived path (the sanitized stem followed by "-100.png"),
    tryToGenerateThumbnail returns that relative path and performs no image
    load, resize or write, so a rerun over the same input re-derives no
    existing thumbnail. -/
theorem C6_thumbnail_cache_short_circuit (env : FsEnv) (path : String)
    (g : NGame) (oi : String)
    (h1 : chooseOriginalImage g = some oi)
    (h2 : env.readable (resolvePath path oi) = true)
    (h3 : env.readable (resolvePath path (g.sanitizedFileName ++ "-100.png")) = true) :
    tryToGenerateThumbnail env path g = (g.sanitizedFileName ++ "-100.png", false) := by
  simp [tryToGenerateThumbnail, h1, h2, h3]

/-- Witness for C6: a concrete game with an existing derived thumbnail. -/
theorem C6_witness :
    chooseOriginalImage { image := some "i.png", sanitizedFileName := "a" } = some "i.png"
    ∧ tryToGenerateThumbnail ⟨fun _ => true, fun _ => true⟩ "/r"
        { image := some "i.png", sanitizedFileName := "a" } = ("a-100.png", false) :=
  ⟨by decide,
   C6_thumbnail_cache_short_circuit ⟨fun _ => true, fun _ => true⟩ "/r"
     { image := some "i.png", sanitizedFileName := "a" } "i.png" (by decide) rfl rfl⟩

theorem catalogWalk_eq (supported : String → Option String) (env : FsEnv)
    (root : String) : ∀ (entries : List DirEntry) (acc : List SystemRec),
    entries.foldl (catalogStep supported env root) acc
      = acc ++ (entries.filter (fun e => truthy (supported e.name)
          && (e.isDir && isSystemDirectory env (resolvePath root e.name)))).map
          (fun e => mkSystem supported e.name) := by
  intro entries
  induction entries with
  | nil => intro acc; simp
  | cons e es ih =>
    intro acc
    rw [List.foldl_cons, List.filter_cons]
    by_cases h1 : truthy (supported e.name) = true
    · by_cases h2 : (e.isDir && isSystemDirectory env (resolvePath root e.name)) = true
      · rw [if_pos (by simp [h1, h2])]
        have hstep : catalogStep supported env root acc e
            = acc ++ [mkSystem supported e.name] := by
          simp [catalogStep, h1, h2]
        rw [hstep, ih]
        simp [List.append_assoc]
      · rw [Bool.not_eq_true] at h2
        rw [if_neg (by simp [h1, h2])]
        have hstep : catalogStep supported env root acc e = acc := by
          simp [catalogStep, h1, h2]
        rw [hstep, ih]
    · rw [Bool.not_eq_true] at h1
      rw [if_neg (by simp [h1])]
      have hstep : catalogStep supported env root acc e = acc := by
        simp [catalogStep, h1]
      rw [hstep, ih]

/-- C7: under a lookup table whose display names are non-empty, a direct
    child of the target root yields a system record (and an entry of the
    sorted home-page list) exactly when it is a directory, contains a
    readable gamelist.xml, and its name is a key of the table; all other
    children are skipped and the walk never fails. -/
theorem C7_system_qualification (supported : String → Option String) (env : FsEnv)
    (root : String) (entries : List DirEntry)
    (hne : ∀ id s, supported id = some s → s ≠ "") :
    catalogWalk supported env root entries
      = (entries.filter (fun e => e.isDir
          && (isSystemDirectory env (resolvePath root e.name)
              && (supported e.name).isSome))).map
          (fun e => mkSystem supported e.name)
    ∧ (∀ sys, sys ∈ sortSystems (catalogWalk supported env root entries) ↔
        ∃ e ∈ entries, e.isDir = true
          ∧ isSystemDirectory env (resolvePath root e.name) = true
          ∧ (supported e.name).isSome = true
          ∧ sys = mkSystem supported e.name) := by
  have htruthy : ∀ n, truthy (supported n) = (supported n).isSome := by
    intro n
    cases hs : supported n with
    | none => rfl
    | some s =>
      have hne2 := hne n s hs
      simp [truthy, hne2]
  have h0 : catalogWalk supported env root entries
      = (entries.filter (fun e => e.isDir
          && (isSystemDirectory env (resolvePath root e.name)
              && (supported e.name).isSome))).map
          (fun e => mkSystem supported e.name) := by
    unfold catalogWalk
    rw [catalogWalk_eq]
    rw [List.nil_append]
    congr 1
    apply List.filter_congr
    intro e _
    rw [htruthy e.name]
    cases (supported e.name).isSome <;> cases e.isDir
      <;> cases isSystemDirectory env (resolvePath root e.name) <;> rfl
  refine ⟨h0, ?_⟩
  intro sys
  have hperm := List.perm_insertionSort sysLe (catalogWalk supported env root entries)
  constructor
  · intro hmem
    simp only [sortSystems] at hmem
    have hw := hperm.mem_iff.mp hmem
    rw [h0] at hw
    rcases List.mem_map.mp hw with ⟨e, hef, heq⟩
    have hf := List.mem_filter.mp hef
    have hb := hf.2
    simp only [Bool.and_eq_true] at hb
    exact ⟨e, hf.1, hb.1, hb.2.1, hb.2.2, heq.symm⟩
  · rintro ⟨e, he, hd, hs, hsome, rfl⟩
    simp only [sortSystems]
    apply hperm.mem_iff.mpr
    rw [h0]
    refine List.mem_map.mpr ⟨e, List.mem_filter.mpr ⟨he, ?_⟩, rfl⟩
    rw [hd, hs, hsome]
    rfl

/-- Witness for C7: a three-entry root where only the recognized directory
    with a readable descriptor becomes a system. -/
theorem C7_witness :
    catalogWalk (fun id => if id == "nes" then some "Nintendo" else none)
        ⟨fun _ => true, fun _ => true⟩ "/r"
        [{ name := "nes", isDir := true }, { name := "foo", isDir := true },
         { name := "gba", isDir := false }]
      = [{ id := "nes", name := "Nintendo", logo := "/assets/nes.svg" }] :=
  ((C7_system_qualification (fun id => if id == "nes" then some "Nintendo" else none)
      ⟨fun _ => true, fun _ => true⟩ "/r"
      [{ name := "nes", isDir := true }, { name := "foo", isDir := true },
       { name := "gba", isDir := false }]
      (by
        intro id s h
        have h2 : (if (id == "nes") = true then (some "Nintendo" : Option String) else none)
            = some s := h
        by_cases hid : (id == "nes") = true
        · rw [if_pos hid] at h2
          injection h2 with h3
          rw [← h3]
          decide
        · rw [if_neg hid] at h2
          cases h2)).1).trans (by decide)

/-- C8: the normalized record without its thumbnail reference is a pure
    function of the raw entry and the owning system directory path: it does
    not depend on the filesystem and image environment, and the per-game
    normalization with the real sanitization transform never fails. -/
theorem C8_normalization_pure (env1 env2 : FsEnv) (path : String) (g : Game) :
    Except.map NGame.core (processGame sanitizeFileNameE env1 path g)
      = Except.map NGame.core (processGame sanitizeFileNameE env2 path g)
    ∧ ∃ n, processGame sanitizeFileNameE env1 path g = .ok n :=
  ⟨rfl, ⟨_, rfl⟩⟩

theorem hexDigit_mem (n : Nat) : hexDigit n ∈ hexDigits := by
  unfold hexDigit
  by_cases h : n < hexDigits.length
  · rw [List.getD_eq_getElem _ _ h]
    exact List.getElem_mem h
  · rw [List.getD_eq_default _ _ (Nat.le_of_not_lt h)]
    decide

/-- C9: urlEncode never emits a literal slash, and for any input containing
    a slash the output contains the percent-encoded form "%2F" in its
    place. -/
theorem C9_urlEncode_encodes_separators (s : String) :
    '/' ∉ (urlEncode s).data
    ∧ ('/' ∈ s.data → ['%', '2', 'F'] <:+: (urlEncode s).data) := by
  constructor
  · intro h
    have h2 : '/' ∈ s.data.flatMap urlEncodeChar := h
    rcases List.mem_flatMap.mp h2 with ⟨a, _, hc⟩
    unfold urlEncodeChar at hc
    by_cases hu : uriUnreserved a = true
    · rw [if_pos hu] at hc
      rcases List.mem_singleton.mp hc with heq
      rw [← heq] at hu
      exact absurd hu (by decide)
    · rw [if_neg hu] at hc
      rcases List.mem_flatMap.mp hc with ⟨b, _, hcb⟩
      rcases List.mem_cons.mp hcb with h1 | h1
      · exact absurd h1 (by decide)
      rcases List.mem_cons.mp h1 with h2 | h2
      · have hm := hexDigit_mem (b / 16)
        rw [← h2] at hm
        exact absurd hm (by decide)
      rcases List.mem_cons.mp h2 with h3 | h3
      · have hm := hexDigit_mem (b % 16)
        rw [← h3] at hm
        exact absurd hm (by decide)
      · cases h3
  · intro h
    rcases List.append_of_mem h with ⟨l1, l2, hs⟩
    have hdata : (urlEncode s).data
        = l1.flatMap urlEncodeChar ++ (['%', '2', 'F'] ++ l2.flatMap urlEncodeChar) := by
      show s.data.flatMap urlEncodeChar = _
      rw [hs, List.flatMap_append, List.flatMap_cons]
      rw [show urlEncodeChar '/' = ['%', '2', 'F'] from by decide]
    refine ⟨l1.flatMap urlEncodeChar, l2.flatMap urlEncodeChar, ?_⟩
    rw [hdata, List.append_assoc]

/-- Witness for C9: a concrete path containing a slash. -/
theorem C9_witness :
    '/' ∈ "a/b".data ∧ ['%', '2', 'F'] <:+: (urlEncode "a/b").data :=
  ⟨by decide, (C9_urlEncode_encodes_separators "a/b").2 (by decide)⟩

end Generate
